import Mathlib

/-!
Shallow embedding of `mmdet/models/utils/transformer_old.py` (Pix2seq-mmdetection).

Tensors of rational values are modelled as `List ℚ` (1-D) or `List (List ℚ)`
(2-D, row major); real-valued transcendental pieces (`sigmoid`,
`inverse_sigmoid`, the proposal logit) are modelled over `ℝ`/`EReal`.
-/

namespace Pix2seq

/-! ### torch.argmax / torch.argmin on 1-D tensors (first maximal index) -/

/-- Index of the first maximal element (`torch.argmax` on a 1-D tensor). -/
def argmaxIdx : List ℚ → ℕ
  | [] => 0
  | [_] => 0
  | x :: y :: xs =>
    let j := argmaxIdx (y :: xs)
    if x < (y :: xs).getD j 0 then j + 1 else 0

/-- Index of the first minimal element (`torch.argmin` on a 1-D tensor). -/
def argminIdx : List ℚ → ℕ
  | [] => 0
  | [_] => 0
  | x :: y :: xs =>
    let j := argminIdx (y :: xs)
    if (y :: xs).getD j 0 < x then j + 1 else 0

/-! ### Pix2seqTransformer.forward, eval branch (transformer_old.py:1339-1386)

The decoder/classifier stack is opaque to the stopping logic, so the
per-step classifier output `similarity` (shape `bs × num_vocal`, the
leading singleton dim already squeezed) is an oracle `sims : ℕ → List (List ℚ)`.
The loop state (`end`, `end_lens`, the emitted logit list) and the
stop/break logic are embedded verbatim. -/

/-- Embeds `is_eos = similarity[:, :, :num_vocal-1].argmax(dim=-1)`;
`stop_state = is_eos.squeeze(0).eq(num_vocal - 2)`. -/
def stopStateOf (num_vocal : ℕ) (sim : List (List ℚ)) : List Bool :=
  sim.map (fun row => decide (argmaxIdx (row.take (num_vocal - 1)) = num_vocal - 2))

/-- Result of the autoregressive loop: how many tokens were emitted
(appended to `pred_seq_logits`) and the final `end_lens` tensor. -/
structure DecodeResult where
  emitted : ℕ
  end_lens : List ℕ

/-- One-per-iteration body of `for seq_i in range(500)`. `fuel` is the number
of remaining iterations. With `pred_eos`:
`end_lens += seq_i * (~end * stop_state)`; `end = (stop_state + end).bool()`;
`if end.all() and seq_i > 4: break` (the break happens before the token for
this step is emitted). Without `pred_eos` the stop block is skipped. -/
def decodeLoopFrom (pred_eos : Bool) (stop : ℕ → List Bool) :
    ℕ → ℕ → List Bool → List ℕ → DecodeResult
  | 0, _, _, lens => ⟨0, lens⟩
  | fuel + 1, seq_i, ends, lens =>
    if pred_eos then
      let s := stop seq_i
      let lens' := List.zipWith3
        (fun len e st => len + seq_i * (if !e && st then 1 else 0)) lens ends s
      let ends' := List.zipWith (fun st e => st || e) s ends
      if ends'.all (fun b => b) && decide (4 < seq_i) then ⟨0, lens'⟩
      else
        let r := decodeLoopFrom pred_eos stop fuel (seq_i + 1) ends' lens'
        ⟨r.emitted + 1, r.end_lens⟩
    else
      let r := decodeLoopFrom pred_eos stop fuel (seq_i + 1) ends lens
      ⟨r.emitted + 1, r.end_lens⟩

/-- The eval branch of `Pix2seqTransformer.forward` (also duplicated in
`Pix2seqTransformerPro.forward`): 500-iteration loop starting from
`end = zeros(bs).bool()`, `end_lens = zeros(bs).long()`; afterwards
`if not pred_eos: end_lens.fill_(500)` and
`pred_seq_logits = [psl[:end_idx] for end_idx, psl in zip(end_lens, ...)]`,
so the returned per-sample sequence length is `min end_len emitted`.
Returns the loop result (with the post-loop `end_lens`) and the list of
returned per-sample sequence lengths. -/
def pix2seqDecode (pred_eos : Bool) (num_vocal : ℕ) (sims : ℕ → List (List ℚ))
    (bs : ℕ) : DecodeResult × List ℕ :=
  let r := decodeLoopFrom pred_eos (fun i => stopStateOf num_vocal (sims i)) 500 0
    (List.replicate bs false) (List.replicate bs 0)
  let lens := if pred_eos then r.end_lens else List.replicate bs 500
  (⟨r.emitted, lens⟩, lens.map (fun l => min l r.emitted))

/-! ### top_k_top_p_filtering (transformer_old.py:1769-1798)

`F.softmax` applies the transcendental exponential elementwise; the claims
settled about this function hold for an arbitrary elementwise map, so the
exponential is a parameter `exp : ℚ → ℚ` of the embedding.  The Python
default `filter_value = -inf` is likewise a parameter `fv`. -/

/-- Embeds `torch.sort(logits, descending=True)[1]`: the index permutation sorting
the logits in descending order. -/
def sortDescIdx (l : List ℚ) : List ℕ :=
  (List.range l.length).mergeSort (fun i j => decide (l.getD j 0 ≤ l.getD i 0))

/-- Embeds `F.softmax` on a 1-D tensor: `exp` then normalize by the sum. -/
def softmaxQ (exp : ℚ → ℚ) (l : List ℚ) : List ℚ :=
  let e := l.map exp
  e.map (fun x => x / e.sum)

def cumsumFrom (acc : ℚ) : List ℚ → List ℚ
  | [] => []
  | x :: xs => (acc + x) :: cumsumFrom (acc + x) xs

/-- Embeds `torch.cumsum` on a 1-D tensor. -/
def cumsum (l : List ℚ) : List ℚ := cumsumFrom 0 l

/-- Embeds `sorted_indices_to_remove[..., 1:] = sorted_indices_to_remove[..., :-1]`
followed by `sorted_indices_to_remove[..., 0] = 0`. -/
def shiftRightKeepFirst (m : List Bool) : List Bool :=
  match m with
  | [] => []
  | _ :: _ => false :: m.dropLast

/-- Positions removed by the nucleus (top-p) branch:
`sorted_indices[sorted_indices_to_remove]`. -/
def nucleusRemoveIdx (exp : ℚ → ℚ) (l : List ℚ) (top_p : ℚ) : List ℕ :=
  let si := sortDescIdx l
  let sorted_logits := si.map (fun i => l.getD i 0)
  let cum := cumsum (softmaxQ exp sorted_logits)
  let m := shiftRightKeepFirst (cum.map (fun c => decide (top_p < c)))
  (si.zip m).filterMap (fun p => if p.2 then some p.1 else none)

/-- Positions removed by the top-k branch:
`logits < torch.topk(logits, top_k)[0][..., -1, None]`. -/
def topKRemoveIdx (l : List ℚ) (k : ℕ) : List ℕ :=
  let sorted_desc := (sortDescIdx l).map (fun i => l.getD i 0)
  let kth := sorted_desc.getD (k - 1) 0
  (List.range l.length).filter (fun i => decide (l.getD i 0 < kth))

def applyRemoveAux (fv : ℚ) (rem : List ℕ) : ℕ → List ℚ → List ℚ
  | _, [] => []
  | i, x :: xs => (if i ∈ rem then fv else x) :: applyRemoveAux fv rem (i + 1) xs

/-- Embeds `logits[indices_to_remove] = filter_value` (on a fresh tensor). -/
def applyRemove (l : List ℚ) (rem : List ℕ) (fv : ℚ) : List ℚ :=
  applyRemoveAux fv rem 0 l

/-- Embeds `top_k_top_p_filtering` on a 1-D logits tensor whose `dim() == 1`
assertion already passed.  `top_k = min(top_k, logits.size(-1))`; the top-k
branch runs when `top_k > 0`, the nucleus branch when `top_p > 0.0`. -/
def top_k_top_p_filtering (exp : ℚ → ℚ) (logits : List ℚ) (top_k : ℕ)
    (top_p fv : ℚ) : List ℚ :=
  let k := min top_k logits.length
  let l1 := if 0 < k then applyRemove logits (topKRemoveIdx logits k) fv else logits
  if 0 < top_p then applyRemove l1 (nucleusRemoveIdx exp l1 top_p) fv else l1

/-! ### the `assert logits.dim() == 1` guard and `torch.squeeze` -/

/-- Python exception raised by a failed `assert`. -/
inductive PyError where
  | assertionError

/-- A tensor abstracted to its shape (sizes per dimension) plus flat data. -/
structure PyTensor where
  shape : List ℕ
  data : List ℚ

/-- Embeds `Tensor.dim()`. -/
def PyTensor.dim (t : PyTensor) : ℕ := t.shape.length

/-- Embeds `torch.squeeze`: drop every dimension of size 1. -/
def PyTensor.squeeze (t : PyTensor) : PyTensor :=
  ⟨t.shape.filter (fun s => s != 1), t.data⟩

/-- Embeds `top_k_top_p_filtering` including its `assert logits.dim() == 1`:
a failed assertion raises `AssertionError`. -/
def top_k_top_p_filteringChecked (exp : ℚ → ℚ) (t : PyTensor) (top_k : ℕ)
    (top_p fv : ℚ) : Except PyError (List ℚ) :=
  if t.dim = 1 then Except.ok (top_k_top_p_filtering exp t.data top_k top_p fv)
  else Except.error PyError.assertionError

def isOkResult : Except PyError (List ℚ) → Bool
  | Except.ok _ => true
  | Except.error _ => false

/-! ### VectorQuantizer (transformer_old.py:1934-1979)

`_embedding.weight` is `num_embeddings × embedding_dim`, modelled as a list
of rows.  `inputs.view(-1, embedding_dim)` is modelled by taking the input
already flattened to a list of `embedding_dim`-vectors. -/

def sumSq (v : List ℚ) : ℚ := (v.map (fun x => x ^ 2)).sum

def dotQ (a b : List ℚ) : ℚ := (List.zipWith (fun x y => x * y) a b).sum

/-- Squared Euclidean distance between two vectors. -/
def dist2 (a b : List ℚ) : ℚ := (List.zipWith (fun x y => (x - y) ^ 2) a b).sum

/-- One row of `distances`:
`sum(x**2) + sum(E**2, dim=1) - 2 * x @ E.t()`. -/
def distRow (x : List ℚ) (codebook : List (List ℚ)) : List ℚ :=
  codebook.map (fun e => sumSq x + sumSq e - 2 * dotQ x e)

/-- The one-hot row built by `torch.zeros(..).scatter_(1, encoding_indices, 1)`. -/
def oneHotList : ℕ → ℕ → List ℚ
  | 0, _ => []
  | n + 1, 0 => 1 :: List.replicate n 0
  | n + 1, i + 1 => 0 :: oneHotList n i

def vecAdd (a b : List ℚ) : List ℚ := List.zipWith (fun x y => x + y) a b

def scaleVec (c : ℚ) (v : List ℚ) : List ℚ := v.map (fun x => c * x)

/-- Row-vector times matrix (`torch.matmul(encodings, self._embedding.weight)`
for one row of `encodings`), as a running sum of scaled matrix rows. -/
def matVecGo : List ℚ → List (List ℚ) → List ℚ → List ℚ
  | [], _, acc => acc
  | _, [], acc => acc
  | c :: cs, r :: rs, acc => matVecGo cs rs (vecAdd acc (scaleVec c r))

/-- Embeds `F.mse_loss` (mean over all elements) for two same-shape 2-D tensors. -/
def mseLoss (a b : List (List ℚ)) : ℚ :=
  (List.zipWith dist2 a b).sum / ((a.map List.length).sum : ℚ)

structure VectorQuantizer where
  embedding_weight : List (List ℚ)
  embedding_dim : ℕ
  commitment_cost : ℚ

/-- Embeds `VectorQuantizer.forward`.  The straight-through line
`quantized = inputs + (quantized - inputs).detach()` is the identity on
values, so the returned `quantized` is the codebook-row selection. -/
def VectorQuantizer.forward (m : VectorQuantizer) (inputs : List (List ℚ)) :
    List (List ℚ) × ℚ × List ℕ :=
  let flat_input := inputs
  let distances := flat_input.map (fun x => distRow x m.embedding_weight)
  let encoding_indices := distances.map argminIdx
  let quantized := encoding_indices.map (fun i =>
    matVecGo (oneHotList m.embedding_weight.length i) m.embedding_weight
      (List.replicate m.embedding_dim 0))
  let e_latent_loss := mseLoss quantized inputs
  let q_latent_loss := mseLoss quantized inputs
  let loss := q_latent_loss + m.commitment_cost * e_latent_loss
  (quantized, loss, encoding_indices)

/-! ### inverse_sigmoid (transformer_old.py:421-437) over ℝ -/

/-- Embeds `x.clamp(min=0, max=1)`. -/
noncomputable def clamp01 (x : ℝ) : ℝ := min (max x 0) 1

/-- Embeds `x1 = x.clamp(min=eps)` applied after the `[0,1]` clamp. -/
noncomputable def invSigNum (x eps : ℝ) : ℝ := max (clamp01 x) eps

/-- Embeds `x2 = (1 - x).clamp(min=eps)` applied after the `[0,1]` clamp. -/
noncomputable def invSigDen (x eps : ℝ) : ℝ := max (1 - clamp01 x) eps

/-- Embeds `inverse_sigmoid(x, eps) = torch.log(x1 / x2)`. -/
noncomputable def inverse_sigmoid (x : ℝ) (eps : ℝ) : ℝ :=
  Real.log (invSigNum x eps / invSigDen x eps)

/-- Embeds `torch.sigmoid`. -/
noncomputable def sigmoid (x : ℝ) : ℝ := 1 / (1 + Real.exp (-x))

/-! ### DeformableDetrTransformerDecoder.forward reference update
(transformer_old.py:730-743)

A per-query reference tensor is a value vector together with the autograd
`requires_grad` flag; `.detach()` clears the flag (stop-gradient). -/

structure GradTensor (n : ℕ) where
  val : Fin n → ℝ
  requires_grad : Bool

def GradTensor.detach {n : ℕ} (t : GradTensor n) : GradTensor n := ⟨t.val, false⟩

/-- The 4-coordinate branch:
`new_reference_points = (tmp + inverse_sigmoid(reference_points)).sigmoid()`;
`reference_points = new_reference_points.detach()`.
(`inverse_sigmoid` is called with its default `eps = 1e-5`.) -/
noncomputable def refineStep4 (tmp : GradTensor 4) (ref : GradTensor 4) :
    GradTensor 4 :=
  GradTensor.detach
    ⟨fun i => sigmoid (tmp.val i + inverse_sigmoid (ref.val i) 1e-5),
     tmp.requires_grad || ref.requires_grad⟩

/-- The 2-coordinate branch: `new_reference_points = tmp`;
`new_reference_points[..., :2] = tmp[..., :2] + inverse_sigmoid(reference_points)`;
`new_reference_points = new_reference_points.sigmoid()`; then `.detach()`. -/
noncomputable def refineStep2 (tmp : GradTensor 4) (ref : GradTensor 2) :
    GradTensor 4 :=
  GradTensor.detach
    ⟨fun i =>
      if h : (i : ℕ) < 2 then
        sigmoid (tmp.val i + inverse_sigmoid (ref.val ⟨i, h⟩) 1e-5)
      else sigmoid (tmp.val i),
     tmp.requires_grad || ref.requires_grad⟩

/-! ### DeformableDetrTransformer.gen_encoder_output_proposals
(transformer_old.py:811-881)

One batch element of one feature level: the flattened padding mask at level
`lvl` of spatial shape `H × W` is `mask h w`.  The grid/width-height
arithmetic is rational; the inverse-sigmoid encoding `log(p / (1-p))` and the
`float('inf')` fills live in `EReal` (`⊤ = +∞`). -/

/-- Embeds `valid_H = torch.sum(~mask_flatten_[:, :, 0, 0], 1)`: the number of rows
whose first column is not padded. -/
def validH (mask : ℕ → ℕ → Bool) (H : ℕ) : ℕ :=
  ((List.range H).filter (fun h => !(mask h 0))).length

/-- Embeds `valid_W = torch.sum(~mask_flatten_[:, 0, :, 0], 1)`: the number of
columns whose first row is not padded. -/
def validW (mask : ℕ → ℕ → Bool) (W : ℕ) : ℕ :=
  ((List.range W).filter (fun w => !(mask 0 w))).length

/-- The raw 4-coordinate proposal at grid cell `(h, w)` of level `lvl`:
`grid = (grid + 0.5) / scale` with `scale = (valid_W, valid_H)` and
`wh = 0.05 * 2**lvl`, concatenated as `(cx, cy, w, h)`. -/
def proposalRaw (mask : ℕ → ℕ → Bool) (H W lvl h w : ℕ) : Fin 4 → ℚ :=
  fun i =>
    if i = 0 then ((w : ℚ) + 1 / 2) / (validW mask W : ℚ)
    else if i = 1 then ((h : ℚ) + 1 / 2) / (validH mask H : ℚ)
    else (0.05 : ℚ) * 2 ^ lvl

/-- Embeds `output_proposals_valid = ((p > 0.01) & (p < 0.99)).all(-1)`. -/
def proposalValid (mask : ℕ → ℕ → Bool) (H W lvl h w : ℕ) : Bool :=
  decide (∀ i : Fin 4,
    (0.01 : ℚ) < proposalRaw mask H W lvl h w i ∧
    proposalRaw mask H W lvl h w i < (0.99 : ℚ))

/-- The four output coordinates for grid cell `(h, w)`:
`output_proposals = torch.log(p / (1 - p))`, then
`masked_fill(memory_padding_mask, inf)`, then
`masked_fill(~output_proposals_valid, inf)`. -/
noncomputable def outputProposal (mask : ℕ → ℕ → Bool) (H W lvl h w : ℕ) :
    Fin 4 → EReal :=
  let p := proposalRaw mask H W lvl h w
  let logit : Fin 4 → EReal :=
    fun i => ((Real.log (((p i : ℝ)) / (1 - (p i : ℝ)))) : EReal)
  let afterPad : Fin 4 → EReal := fun i => if mask h w then ⊤ else logit i
  fun i => if proposalValid mask H W lvl h w then afterPad i else ⊤

/-! ## Helper lemmas -/

lemma sigmoid_nonneg (x : ℝ) : 0 ≤ sigmoid x := by
  unfold sigmoid; positivity

lemma sigmoid_le_one (x : ℝ) : sigmoid x ≤ 1 := by
  unfold sigmoid
  rw [div_le_one (by positivity)]
  nlinarith [Real.exp_pos (-x)]

lemma sigmoid_zero : sigmoid 0 = 1 / 2 := by
  unfold sigmoid; rw [neg_zero, Real.exp_zero]; norm_num

lemma getD_replicate {α : Type} (n j : ℕ) (a d : α) (h : j < n) :
    (List.replicate n a).getD j d = a := by
  simp [List.getD_eq_getElem?_getD, List.getElem?_replicate, h]

lemma getD_map_nat (f : ℕ → ℕ) (l : List ℕ) (j : ℕ) (h : j < l.length) :
    (l.map f).getD j 0 = f (l.getD j 0) := by
  simp [List.getD_eq_getElem?_getD, List.getElem?_map, List.getElem?_eq_getElem h]

lemma all_true_getD (l : List Bool) (j : ℕ) (h : j < l.length)
    (hall : l.all (fun b => b) = true) : l.getD j false = true := by
  have hm : l[j] ∈ l := List.getElem_mem h
  have hb := List.all_eq_true.mp hall _ hm
  simp only [List.getD_eq_getElem?_getD, List.getElem?_eq_getElem h]
  exact hb

lemma getD_zipWith_or (a b : List Bool) (j : ℕ) (ha : j < a.length)
    (hb : j < b.length) :
    (List.zipWith (fun st e => st || e) a b).getD j false =
      (a.getD j false || b.getD j false) := by
  induction a generalizing b j with
  | nil => simp at ha
  | cons x xs ih =>
    cases b with
    | nil => simp at hb
    | cons y ys =>
      cases j with
      | zero => rfl
      | succ j =>
        simp only [List.zipWith_cons_cons, List.getD_cons_succ]
        exact ih ys j (by simp at ha; omega) (by simp at hb; omega)

lemma getD_zipWith3 (f : ℕ → Bool → Bool → ℕ) (a : List ℕ) (b c : List Bool)
    (j : ℕ) (ha : j < a.length) (hb : j < b.length) (hc : j < c.length) :
    (List.zipWith3 f a b c).getD j 0 =
      f (a.getD j 0) (b.getD j false) (c.getD j false) := by
  induction a generalizing b c j with
  | nil => simp at ha
  | cons x xs ih =>
    cases b with
    | nil => simp at hb
    | cons y ys =>
      cases c with
      | nil => simp at hc
      | cons z zs =>
        cases j with
        | zero => rfl
        | succ j =>
          simp only [List.zipWith3, List.getD_cons_succ]
          exact ih ys zs j (by simp at ha; omega) (by simp at hb; omega)
            (by simp at hc; omega)

lemma length_zipWith3 (f : ℕ → Bool → Bool → ℕ) (a : List ℕ) (b c : List Bool) :
    (List.zipWith3 f a b c).length = min (min a.length b.length) c.length := by
  induction a generalizing b c with
  | nil => simp [List.zipWith3]
  | cons x xs ih =>
    cases b with
    | nil => simp [List.zipWith3]
    | cons y ys =>
      cases c with
      | nil => simp [List.zipWith3]
      | cons z zs => simp [List.zipWith3, ih ys zs]; omega

lemma zipOr_replicate_true : ∀ (e : List Bool),
    List.zipWith (fun st e => st || e) (List.replicate e.length true) e =
      List.replicate e.length true
  | [] => rfl
  | x :: xs => by
    simp only [List.length_cons, List.replicate_succ, List.zipWith_cons_cons,
      Bool.true_or]
    rw [zipOr_replicate_true xs]

lemma zipOr_replicate_true' (bs : ℕ) (e : List Bool) (h : e.length = bs) :
    List.zipWith (fun st e => st || e) (List.replicate bs true) e =
      List.replicate bs true := by
  subst h; exact zipOr_replicate_true e

lemma decode_break (stop : ℕ → List Bool) (fuel seq_i : ℕ) (ends : List Bool)
    (lens : List ℕ) (h4 : 4 < seq_i) (hf : 0 < fuel)
    (hall : (List.zipWith (fun st e => st || e) (stop seq_i) ends).all
      (fun b => b) = true) :
    (decodeLoopFrom true stop fuel seq_i ends lens).emitted = 0 := by
  cases fuel with
  | zero => omega
  | succ fuel =>
    simp only [decodeLoopFrom]
    simp [hall, h4]

lemma decode_forced (stop : ℕ → List Bool) (bs : ℕ)
    (hstop : ∀ i, stop i = List.replicate bs true) :
    ∀ (fuel seq_i : ℕ) (lens : List ℕ), 5 - seq_i < fuel →
    (decodeLoopFrom true stop fuel seq_i (List.replicate bs true) lens).emitted =
      5 - seq_i := by
  intro fuel
  induction fuel with
  | zero => intro seq_i lens h; omega
  | succ fuel ih =>
    intro seq_i lens h
    have hz : List.zipWith (fun st e => st || e) (List.replicate bs true)
        (List.replicate bs true) = List.replicate bs true :=
      zipOr_replicate_true' bs _ (by simp)
    simp only [decodeLoopFrom, hstop, hz]
    by_cases h4 : 4 < seq_i
    · simp [h4]; omega
    · simp only [h4]
      simp [h4]
      rw [ih (seq_i + 1) _ (by omega)]
      omega

lemma decodeLoopFrom_not_break (stop : ℕ → List Bool) (fuel seq_i : ℕ)
    (ends : List Bool) (lens : List ℕ)
    (hc : ((List.zipWith (fun st e => st || e) (stop seq_i) ends).all
      (fun b => b) && decide (4 < seq_i)) = false) :
    decodeLoopFrom true stop (fuel + 1) seq_i ends lens =
      ⟨(decodeLoopFrom true stop fuel (seq_i + 1)
          (List.zipWith (fun st e => st || e) (stop seq_i) ends)
          (List.zipWith3
            (fun len e st => len + seq_i * (if !e && st then 1 else 0))
            lens ends (stop seq_i))).emitted + 1,
        (decodeLoopFrom true stop fuel (seq_i + 1)
          (List.zipWith (fun st e => st || e) (stop seq_i) ends)
          (List.zipWith3
            (fun len e st => len + seq_i * (if !e && st then 1 else 0))
            lens ends (stop seq_i))).end_lens⟩ := by
  simp only [decodeLoopFrom]
  simp [hc]

lemma decode_forced_start (stop : ℕ → List Bool) (bs : ℕ)
    (hstop : ∀ i, stop i = List.replicate bs true) (fuel : ℕ) (hf : 4 < fuel)
    (ends : List Bool) (lens : List ℕ) (hel : ends.length = bs) :
    (decodeLoopFrom true stop (fuel + 1) 0 ends lens).emitted = 5 := by
  have hz : List.zipWith (fun st e => st || e) (stop 0) ends =
      List.replicate bs true := by
    rw [hstop 0]; exact zipOr_replicate_true' bs ends hel
  rw [decodeLoopFrom_not_break stop fuel 0 ends lens
    (by simp only [show decide (4 < 0) = false from rfl, Bool.and_false])]
  simp only [hz]
  rw [decode_forced stop bs hstop fuel 1 _ (by omega)]

lemma decode_never (stop : ℕ → List Bool) (bs j : ℕ) (hj : j < bs)
    (hlen : ∀ i, (stop i).length = bs)
    (hstopj : ∀ i, (stop i).getD j false = false) :
    ∀ (fuel seq_i : ℕ) (ends : List Bool) (lens : List ℕ),
      ends.length = bs → ends.getD j false = false →
      (decodeLoopFrom true stop fuel seq_i ends lens).emitted = fuel := by
  intro fuel
  induction fuel with
  | zero => intro seq_i ends lens _ _; rfl
  | succ fuel ih =>
    intro seq_i ends lens hel hej
    have hlen' : (List.zipWith (fun st e => st || e) (stop seq_i) ends).length
        = bs := by simp [List.length_zipWith, hlen, hel]
    have hgd : (List.zipWith (fun st e => st || e) (stop seq_i) ends).getD j
        false = false := by
      rw [getD_zipWith_or _ _ j (by rw [hlen]; exact hj) (by rw [hel]; exact hj),
        hstopj seq_i, hej]
      rfl
    have hall : (List.zipWith (fun st e => st || e) (stop seq_i) ends).all
        (fun b => b) = false := by
      cases hA : (List.zipWith (fun st e => st || e) (stop seq_i) ends).all
        (fun b => b) with
      | false => rfl
      | true =>
        have := all_true_getD _ j (by rw [hlen']; exact hj) hA
        rw [this] at hgd
        exact absurd hgd (by simp)
    simp only [decodeLoopFrom]
    simp [hall]
    exact ih (seq_i + 1) _ _ hlen' hgd

lemma decode_lens_length (stop : ℕ → List Bool) (bs : ℕ)
    (hlen : ∀ i, (stop i).length = bs) :
    ∀ (fuel seq_i : ℕ) (ends : List Bool) (lens : List ℕ),
      ends.length = bs → lens.length = bs →
      (decodeLoopFrom true stop fuel seq_i ends lens).end_lens.length = bs := by
  intro fuel
  induction fuel with
  | zero => intro seq_i ends lens _ hll; exact hll
  | succ fuel ih =>
    intro seq_i ends lens hel hll
    have hel' : (List.zipWith (fun st e => st || e) (stop seq_i) ends).length
        = bs := by simp [List.length_zipWith, hlen, hel]
    have hll' : (List.zipWith3
        (fun len e st => len + seq_i * (if !e && st then 1 else 0))
        lens ends (stop seq_i)).length = bs := by
      rw [length_zipWith3]; simp [hlen, hel, hll]
    simp only [decodeLoopFrom]
    split
    · split
      · exact hll'
      · exact ih (seq_i + 1) _ _ hel' hll'
    · exact ih (seq_i + 1) _ _ hel hll

lemma decode_frozen (stop : ℕ → List Bool) (bs j v : ℕ) (hj : j < bs)
    (hlen : ∀ i, (stop i).length = bs) :
    ∀ (fuel seq_i : ℕ) (ends : List Bool) (lens : List ℕ),
      ends.length = bs → lens.length = bs →
      ends.getD j false = true → lens.getD j 0 = v →
      (decodeLoopFrom true stop fuel seq_i ends lens).end_lens.getD j 0 = v := by
  intro fuel
  induction fuel with
  | zero => intro seq_i ends lens _ _ _ hlv; exact hlv
  | succ fuel ih =>
    intro seq_i ends lens hel hll hev hlv
    have hel' : (List.zipWith (fun st e => st || e) (stop seq_i) ends).length
        = bs := by simp [List.length_zipWith, hlen, hel]
    have hll' : (List.zipWith3
        (fun len e st => len + seq_i * (if !e && st then 1 else 0))
        lens ends (stop seq_i)).length = bs := by
      rw [length_zipWith3]; simp [hlen, hel, hll]
    have hev' : (List.zipWith (fun st e => st || e) (stop seq_i) ends).getD j
        false = true := by
      rw [getD_zipWith_or _ _ j (by rw [hlen]; exact hj) (by rw [hel]; exact hj),
        hev]
      simp
    have hlv' : (List.zipWith3
        (fun len e st => len + seq_i * (if !e && st then 1 else 0))
        lens ends (stop seq_i)).getD j 0 = v := by
      rw [getD_zipWith3 _ _ _ _ j (by rw [hll]; exact hj) (by rw [hel]; exact hj)
        (by rw [hlen]; exact hj), hev, hlv]
      simp
    simp only [decodeLoopFrom]
    split
    · split
      · exact hlv'
      · exact ih (seq_i + 1) _ _ hel' hll' hev' hlv'
    · exact ih (seq_i + 1) _ _ hel hll hev hlv

lemma decode_never_lens (stop : ℕ → List Bool) (bs j : ℕ) (hj : j < bs)
    (hlen : ∀ i, (stop i).length = bs)
    (hstopj : ∀ i, (stop i).getD j false = false) :
    ∀ (fuel seq_i : ℕ) (ends : List Bool) (lens : List ℕ),
      ends.length = bs → lens.length = bs →
      ends.getD j false = false → lens.getD j 0 = 0 →
      (decodeLoopFrom true stop fuel seq_i ends lens).end_lens.getD j 0 = 0 := by
  intro fuel
  induction fuel with
  | zero => intro seq_i ends lens _ _ _ hlv; exact hlv
  | succ fuel ih =>
    intro seq_i ends lens hel hll hev hlv
    have hel' : (List.zipWith (fun st e => st || e) (stop seq_i) ends).length
        = bs := by simp [List.length_zipWith, hlen, hel]
    have hll' : (List.zipWith3
        (fun len e st => len + seq_i * (if !e && st then 1 else 0))
        lens ends (stop seq_i)).length = bs := by
      rw [length_zipWith3]; simp [hlen, hel, hll]
    have hev' : (List.zipWith (fun st e => st || e) (stop seq_i) ends).getD j
        false = false := by
      rw [getD_zipWith_or _ _ j (by rw [hlen]; exact hj) (by rw [hel]; exact hj),
        hev, hstopj seq_i]
      rfl
    have hlv' : (List.zipWith3
        (fun len e st => len + seq_i * (if !e && st then 1 else 0))
        lens ends (stop seq_i)).getD j 0 = 0 := by
      rw [getD_zipWith3 _ _ _ _ j (by rw [hll]; exact hj) (by rw [hel]; exact hj)
        (by rw [hlen]; exact hj), hev, hlv, hstopj seq_i]
      simp
    simp only [decodeLoopFrom]
    split
    · split
      · exact hlv'
      · exact ih (seq_i + 1) _ _ hel' hll' hev' hlv'
    · exact ih (seq_i + 1) _ _ hel hll hev hlv

lemma decode_first_eos (stop : ℕ → List Bool) (bs j : ℕ) (hj : j < bs)
    (hlen : ∀ i, (stop i).length = bs) (fuel : ℕ) (ends : List Bool)
    (lens : List ℕ) (hel : ends.length = bs) (hll : lens.length = bs)
    (hs0 : (stop 0).getD j false = true) (he0 : ends.getD j false = false)
    (hl0 : lens.getD j 0 = 0) :
    (decodeLoopFrom true stop (fuel + 1) 0 ends lens).end_lens.getD j 0 = 0 := by
  have hel' : (List.zipWith (fun st e => st || e) (stop 0) ends).length = bs :=
    by simp [List.length_zipWith, hlen, hel]
  have hll' : (List.zipWith3
      (fun len e st => len + 0 * (if !e && st then 1 else 0))
      lens ends (stop 0)).length = bs := by
    rw [length_zipWith3]; simp [hlen, hel, hll]
  have hev' : (List.zipWith (fun st e => st || e) (stop 0) ends).getD j
      false = true := by
    rw [getD_zipWith_or _ _ j (by rw [hlen]; exact hj) (by rw [hel]; exact hj),
      hs0, he0]
    rfl
  have hlv' : (List.zipWith3
      (fun len e st => len + 0 * (if !e && st then 1 else 0))
      lens ends (stop 0)).getD j 0 = 0 := by
    rw [getD_zipWith3 _ _ _ _ j (by rw [hll]; exact hj) (by rw [hel]; exact hj)
      (by rw [hlen]; exact hj), hl0]
    simp
  simp only [decodeLoopFrom]
  simp only [show decide (4 < 0) = false from rfl, Bool.and_false]
  simp only [Bool.false_eq_true, if_false]
  exact decode_frozen stop bs j 0 hj hlen fuel 1 _ _ hel' hll' hev' hlv'

lemma getD_map_at {α β : Type} (f : α → β) (l : List α) (j : ℕ) (da : α)
    (db : β) (h : j < l.length) : (l.map f).getD j db = f (l.getD j da) := by
  simp [List.getD_eq_getElem?_getD, List.getElem?_map, List.getElem?_eq_getElem h]

lemma getD_mem_of_lt {α : Type} (l : List α) (i : ℕ) (d : α)
    (h : i < l.length) : l.getD i d ∈ l := by
  simp only [List.getD_eq_getElem?_getD, List.getElem?_eq_getElem h,
    Option.getD_some]
  exact List.getElem_mem h

lemma sumSq_dot_dist (a b : List ℚ) (h : a.length = b.length) :
    sumSq a + sumSq b - 2 * dotQ a b = dist2 a b := by
  induction a generalizing b with
  | nil =>
    cases b with
    | nil => simp [sumSq, dotQ, dist2]
    | cons y ys => simp at h
  | cons x xs ih =>
    cases b with
    | nil => simp at h
    | cons y ys =>
      have ih' := ih ys (by simpa using h)
      simp only [sumSq, dotQ, dist2, List.map_cons, List.sum_cons,
        List.zipWith_cons_cons] at ih' ⊢
      linear_combination ih'

lemma argminIdx_cons_cons (x y : ℚ) (xs : List ℚ) :
    argminIdx (x :: y :: xs) =
      if (y :: xs).getD (argminIdx (y :: xs)) 0 < x
      then argminIdx (y :: xs) + 1 else 0 := by
  simp only [argminIdx]

lemma argminIdx_lt : ∀ (l : List ℚ), l ≠ [] → argminIdx l < l.length
  | [], h => absurd rfl h
  | [_], _ => by simp [argminIdx]
  | x :: y :: xs, _ => by
    rw [argminIdx_cons_cons]
    by_cases hc : (y :: xs).getD (argminIdx (y :: xs)) 0 < x
    · have ih := argminIdx_lt (y :: xs) (by simp)
      simp only [if_pos hc, List.length_cons] at ih ⊢
      omega
    · rw [if_neg hc]
      simp

lemma argminIdx_min : ∀ (l : List ℚ) (j : ℕ), j < l.length →
    l.getD (argminIdx l) 0 ≤ l.getD j 0
  | [], j, h => by simp at h
  | [x], j, h => by
    have hj : j = 0 := by simpa using Nat.lt_one_iff.mp (by simpa using h)
    subst hj
    simp [argminIdx]
  | x :: y :: xs, j, h => by
    rw [argminIdx_cons_cons]
    by_cases hc : (y :: xs).getD (argminIdx (y :: xs)) 0 < x
    · rw [if_pos hc]
      cases j with
      | zero => simpa [List.getD_cons_succ, List.getD_cons_zero] using le_of_lt hc
      | succ j =>
        have ih := argminIdx_min (y :: xs) j (by simpa using h)
        simpa [List.getD_cons_succ] using ih
    · rw [if_neg hc]
      have hx := not_lt.mp hc
      cases j with
      | zero => simp [List.getD_cons_zero]
      | succ j =>
        have ih := argminIdx_min (y :: xs) j (by simpa using h)
        simp only [List.getD_cons_succ, List.getD_cons_zero]
        exact le_trans hx ih

lemma getD_distRow (x : List ℚ) (rows : List (List ℚ)) (j : ℕ)
    (h : j < rows.length) :
    (distRow x rows).getD j 0 =
      sumSq x + sumSq (rows.getD j []) - 2 * dotQ x (rows.getD j []) := by
  simp [distRow, List.getD_eq_getElem?_getD, List.getElem?_map,
    List.getElem?_eq_getElem h]

lemma vecAdd_replicate_zero (r : List ℚ) :
    vecAdd (List.replicate r.length 0) r = r := by
  induction r with
  | nil => rfl
  | cons a as ih =>
    show List.zipWith _ (0 :: List.replicate as.length 0) (a :: as) = a :: as
    rw [List.zipWith_cons_cons, zero_add]
    exact congrArg (List.cons a) ih

lemma vecAdd_replicate_zero_right (a : List ℚ) :
    vecAdd a (List.replicate a.length 0) = a := by
  induction a with
  | nil => rfl
  | cons x xs ih =>
    show List.zipWith _ (x :: xs) (0 :: List.replicate xs.length 0) = x :: xs
    rw [List.zipWith_cons_cons, add_zero]
    exact congrArg (List.cons x) ih

lemma scaleVec_one (r : List ℚ) : scaleVec 1 r = r := by simp [scaleVec]

lemma scaleVec_zero (r : List ℚ) :
    scaleVec 0 r = List.replicate r.length 0 := by
  induction r with
  | nil => rfl
  | cons a as ih =>
    show (0 * a) :: List.map (fun x => 0 * x) as = 0 :: List.replicate as.length 0
    rw [zero_mul]
    exact congrArg (List.cons 0) ih

lemma vecAdd_zero_zero (d : ℕ) :
    vecAdd (List.replicate d (0 : ℚ)) (List.replicate d 0) =
      List.replicate d 0 := by
  induction d with
  | zero => rfl
  | succ d ih =>
    show ((0 : ℚ) + 0) :: List.zipWith _ (List.replicate d 0) (List.replicate d 0)
      = 0 :: List.replicate d 0
    rw [add_zero]
    exact congrArg (List.cons 0) ih

lemma matVecGo_zeros_acc (cs : List ℚ) (rows : List (List ℚ)) (acc : List ℚ)
    (hr : ∀ r ∈ rows, r.length = acc.length) (hc : ∀ c ∈ cs, c = 0) :
    matVecGo cs rows acc = acc := by
  induction cs generalizing rows with
  | nil => cases rows <;> rfl
  | cons c cs ih =>
    cases rows with
    | nil => rfl
    | cons r rs =>
      have hc0 : c = 0 := hc c (by simp)
      have hrd : r.length = acc.length := hr r (by simp)
      show matVecGo cs rs (vecAdd acc (scaleVec c r)) = acc
      rw [hc0, scaleVec_zero, hrd, vecAdd_replicate_zero_right]
      exact ih rs (fun r' h' => hr r' (by simp [h'])) (fun c' h' => hc c' (by simp [h']))

lemma matVecGo_oneHot : ∀ (rows : List (List ℚ)) (i d : ℕ),
    (∀ r ∈ rows, r.length = d) → i < rows.length →
    matVecGo (oneHotList rows.length i) rows (List.replicate d 0) =
      rows.getD i []
  | [], i, d, _, h => by simp at h
  | r :: rs, 0, d, hr, _ => by
    have hrd : r.length = d := hr r (by simp)
    show matVecGo (List.replicate rs.length 0) rs
      (vecAdd (List.replicate d 0) (scaleVec 1 r)) = r
    rw [scaleVec_one, ← hrd, vecAdd_replicate_zero]
    exact matVecGo_zeros_acc _ rs r
      (fun r' h' => by rw [hr r' (by simp [h']), hrd])
      (fun c' h' => List.eq_of_mem_replicate h')
  | r :: rs, i + 1, d, hr, h => by
    show matVecGo (oneHotList rs.length i) rs
      (vecAdd (List.replicate d 0) (scaleVec 0 r)) = rs.getD i []
    rw [scaleVec_zero, hr r (by simp), vecAdd_zero_zero]
    exact matVecGo_oneHot rs i d (fun r' h' => hr r' (by simp [h']))
      (by simpa using h)


/-- C2: for inputs whose vectors have length `embedding_dim` (and a nonempty
codebook), `VectorQuantizer.forward` returns a quantized tensor of the same
shape as the input whose every vector equals (in value) a Euclidean-nearest
codebook entry for the corresponding input vector, and encoding indices all
lie in `[0, num_embeddings)`. -/
theorem vq_forward_spec (m : VectorQuantizer) (inputs : List (List ℚ))
    (hcb : m.embedding_weight ≠ [])
    (hd : ∀ r ∈ m.embedding_weight, r.length = m.embedding_dim)
    (hx : ∀ x ∈ inputs, x.length = m.embedding_dim) :
    ((m.forward inputs).1.length = inputs.length ∧
      ∀ q ∈ (m.forward inputs).1, q.length = m.embedding_dim) ∧
    (∀ j, j < inputs.length → ∃ i, i < m.embedding_weight.length ∧
      (m.forward inputs).1.getD j [] = m.embedding_weight.getD i [] ∧
      ∀ k, k < m.embedding_weight.length →
        dist2 (inputs.getD j []) (m.embedding_weight.getD i []) ≤
        dist2 (inputs.getD j []) (m.embedding_weight.getD k [])) ∧
    (∀ idx ∈ (m.forward inputs).2.2, idx < m.embedding_weight.length) := by
  have hq : (m.forward inputs).1 = inputs.map (fun x =>
      matVecGo (oneHotList m.embedding_weight.length
          (argminIdx (distRow x m.embedding_weight)))
        m.embedding_weight (List.replicate m.embedding_dim 0)) := by
    simp [VectorQuantizer.forward, List.map_map, Function.comp]
  have hidx : (m.forward inputs).2.2 =
      inputs.map (fun x => argminIdx (distRow x m.embedding_weight)) := by
    simp [VectorQuantizer.forward, List.map_map, Function.comp]
  have hkey : ∀ x : List ℚ, x.length = m.embedding_dim →
      argminIdx (distRow x m.embedding_weight) < m.embedding_weight.length ∧
      matVecGo (oneHotList m.embedding_weight.length
          (argminIdx (distRow x m.embedding_weight)))
        m.embedding_weight (List.replicate m.embedding_dim 0) =
        m.embedding_weight.getD (argminIdx (distRow x m.embedding_weight)) [] ∧
      ∀ k, k < m.embedding_weight.length →
        dist2 x (m.embedding_weight.getD
          (argminIdx (distRow x m.embedding_weight)) []) ≤
        dist2 x (m.embedding_weight.getD k []) := by
    intro x hxd
    have hdlen : (distRow x m.embedding_weight).length =
        m.embedding_weight.length := by simp [distRow]
    have hdne : distRow x m.embedding_weight ≠ [] := by
      cases hE : m.embedding_weight with
      | nil => exact absurd hE hcb
      | cons r rs => simp [distRow, hE]
    have hlt : argminIdx (distRow x m.embedding_weight) <
        m.embedding_weight.length := by
      have h := argminIdx_lt _ hdne
      rwa [hdlen] at h
    refine ⟨hlt, matVecGo_oneHot _ _ _ hd hlt, ?_⟩
    intro k hk
    have hmin := argminIdx_min (distRow x m.embedding_weight) k
      (by rwa [hdlen])
    rw [getD_distRow x _ _ hlt, getD_distRow x _ _ hk] at hmin
    rw [← sumSq_dot_dist x _ (by rw [hxd, hd _ (getD_mem_of_lt _ _ _ hlt)]),
      ← sumSq_dot_dist x _ (by rw [hxd, hd _ (getD_mem_of_lt _ _ _ hk)])]
    exact hmin
  refine ⟨⟨?_, ?_⟩, ?_, ?_⟩
  · rw [hq]; simp
  · intro q hq2
    rw [hq] at hq2
    obtain ⟨x, hxm, hxe⟩ := List.mem_map.mp hq2
    have hk := hkey x (hx x hxm)
    rw [← hxe, hk.2.1]
    exact hd _ (getD_mem_of_lt _ _ _ hk.1)
  · intro j hj
    have hxm : inputs.getD j [] ∈ inputs := getD_mem_of_lt _ _ _ hj
    have hk := hkey _ (hx _ hxm)
    refine ⟨argminIdx (distRow (inputs.getD j []) m.embedding_weight),
      hk.1, ?_, hk.2.2⟩
    rw [hq, getD_map_at _ _ j [] [] hj, hk.2.1]
  · intro idx hidx2
    rw [hidx] at hidx2
    obtain ⟨x, hxm, hxe⟩ := List.mem_map.mp hidx2
    rw [← hxe]
    exact (hkey x (hx x hxm)).1

/-- Witness for C2 with codebook `[[0], [2]]` (dim 1) and input `[[1/4]]`. -/
theorem vq_forward_spec_witness :
    (((VectorQuantizer.mk [[0], [2]] 1 1).forward [[(1 : ℚ) / 4]]).1.length = 1 ∧
      ∀ q ∈ ((VectorQuantizer.mk [[0], [2]] 1 1).forward [[(1 : ℚ) / 4]]).1,
        q.length = 1) ∧
    (∀ j, j < 1 → ∃ i, i < 2 ∧
      ((VectorQuantizer.mk [[0], [2]] 1 1).forward [[(1 : ℚ) / 4]]).1.getD j []
        = ([[0], [2]] : List (List ℚ)).getD i [] ∧
      ∀ k, k < 2 →
        dist2 (([[(1 : ℚ) / 4]] : List (List ℚ)).getD j [])
          (([[0], [2]] : List (List ℚ)).getD i []) ≤
        dist2 (([[(1 : ℚ) / 4]] : List (List ℚ)).getD j [])
          (([[0], [2]] : List (List ℚ)).getD k [])) ∧
    (∀ idx ∈ ((VectorQuantizer.mk [[0], [2]] 1 1).forward
        [[(1 : ℚ) / 4]]).2.2, idx < 2) :=
  vq_forward_spec (VectorQuantizer.mk [[0], [2]] 1 1) [[(1 : ℚ) / 4]]
    (by simp) (by decide) (by decide)


lemma applyRemoveAux_getD (fv : ℚ) (rem : List ℕ) (l : List ℚ) :
    ∀ (i j : ℕ), j < l.length →
    (applyRemoveAux fv rem i l).getD j 0 =
      if (i + j) ∈ rem then fv else l.getD j 0 := by
  induction l with
  | nil => intro i j h; simp at h
  | cons x xs ih =>
    intro i j h
    cases j with
    | zero => simp [applyRemoveAux]
    | succ j =>
      simp only [applyRemoveAux, List.getD_cons_succ]
      rw [ih (i + 1) j (by simpa using h)]
      have hsum : i + 1 + j = i + (j + 1) := by omega
      rw [hsum]

lemma sortDescIdx_perm (l : List ℚ) :
    List.Perm (sortDescIdx l) (List.range l.length) :=
  List.mergeSort_perm _ _

lemma sortDescIdx_nodup (l : List ℚ) : (sortDescIdx l).Nodup :=
  ((sortDescIdx_perm l).nodup_iff).mpr (List.nodup_range _)

lemma sortDescIdx_length (l : List ℚ) : (sortDescIdx l).length = l.length := by
  simp [sortDescIdx]

lemma sortDescIdx_mem (l : List ℚ) (i : ℕ) (h : i ∈ sortDescIdx l) :
    i < l.length :=
  List.mem_range.mp ((sortDescIdx_perm l).mem_iff.mp h)

lemma sortDescIdx_headD_lt (l : List ℚ) (hl : l ≠ []) :
    (sortDescIdx l).headD 0 < l.length := by
  cases hsi : sortDescIdx l with
  | nil =>
    have hlen := sortDescIdx_length l
    rw [hsi] at hlen
    cases l with
    | nil => exact absurd rfl hl
    | cons a as => simp at hlen
  | cons i0 rest =>
    have hm : i0 ∈ sortDescIdx l := by rw [hsi]; simp
    simpa [hsi] using sortDescIdx_mem l i0 hm

lemma sortDescIdx_sorted (l : List ℚ) :
    (sortDescIdx l).Pairwise
      (fun i j => decide (l.getD j 0 ≤ l.getD i 0) = true) :=
  List.sorted_mergeSort
    (fun a b c hab hbc => by
      simp only [decide_eq_true_eq] at hab hbc ⊢
      exact le_trans hbc hab)
    (fun a b => by
      simp only [Bool.or_eq_true, decide_eq_true_eq]
      exact le_total (l.getD b 0) (l.getD a 0))
    (List.range l.length)

lemma sortDescIdx_head_max (l : List ℚ) :
    ∀ j, j < l.length → l.getD j 0 ≤ l.getD ((sortDescIdx l).headD 0) 0 := by
  intro j hj
  have hmem : j ∈ sortDescIdx l :=
    (sortDescIdx_perm l).mem_iff.mpr (List.mem_range.mpr hj)
  cases hsi : sortDescIdx l with
  | nil => rw [hsi] at hmem; simp at hmem
  | cons i0 rest =>
    rw [hsi] at hmem
    simp only [hsi, List.headD_cons]
    rcases List.mem_cons.mp hmem with h | h
    · subst h; exact le_refl _
    · have hp := sortDescIdx_sorted l
      rw [hsi] at hp
      exact of_decide_eq_true ((List.pairwise_cons.mp hp).1 j h)

lemma head_not_in_nucleusRemove (exp : ℚ → ℚ) (l : List ℚ) (p : ℚ)
    (hl : l ≠ []) : (sortDescIdx l).headD 0 ∉ nucleusRemoveIdx exp l p := by
  have hnd := sortDescIdx_nodup l
  have hlen := sortDescIdx_length l
  cases hsi : sortDescIdx l with
  | nil =>
    rw [hsi] at hlen
    cases l with
    | nil => exact absurd rfl hl
    | cons a as => simp at hlen
  | cons i0 rest =>
    rw [hsi] at hnd
    simp only [hsi, List.headD_cons]
    intro hmem
    simp only [nucleusRemoveIdx, hsi, List.mem_filterMap] at hmem
    obtain ⟨⟨a, b⟩, hab, hsome⟩ := hmem
    by_cases hb : b = true
    · subst hb
      simp only [if_true, Option.some.injEq] at hsome
      subst hsome
      simp only [List.map_cons, softmaxQ, cumsum, cumsumFrom,
        shiftRightKeepFirst, List.zip_cons_cons, List.mem_cons] at hab
      rcases hab with hab | hab
      · simp at hab
      · exact (List.nodup_cons.mp hnd).1 (List.of_mem_zip hab).1
    · simp [hb] at hsome


/-- C8: for every 1-D logits tensor and every `top_p > 0`, the nucleus branch
of `top_k_top_p_filtering` never assigns the filter value to the position
holding the largest logit: the first element of the descending sort is kept
with its original value, and that position indeed holds a maximal logit. -/
theorem nucleus_keeps_top1 (exp : ℚ → ℚ) (l : List ℚ) (p fv : ℚ)
    (hp : 0 < p) (hl : l ≠ []) :
    (top_k_top_p_filtering exp l 0 p fv).getD ((sortDescIdx l).headD 0) 0 =
      l.getD ((sortDescIdx l).headD 0) 0 ∧
    ∀ j, j < l.length → l.getD j 0 ≤ l.getD ((sortDescIdx l).headD 0) 0 := by
  refine ⟨?_, sortDescIdx_head_max l⟩
  have hres : top_k_top_p_filtering exp l 0 p fv =
      applyRemove l (nucleusRemoveIdx exp l p) fv := by
    simp [top_k_top_p_filtering, hp]
  rw [hres]
  unfold applyRemove
  rw [applyRemoveAux_getD fv _ l 0 _ (sortDescIdx_headD_lt l hl)]
  rw [if_neg]
  rw [Nat.zero_add]
  exact head_not_in_nucleusRemove exp l p hl

/-- Witness for C8 at `l = [1, 2]`, `top_p = 1`: the max position keeps its
logit and holds the maximum. -/
theorem nucleus_keeps_top1_witness :
    (top_k_top_p_filtering id [1, 2] 0 1 0).getD
        ((sortDescIdx [1, 2]).headD 0) 0 =
      ([1, 2] : List ℚ).getD ((sortDescIdx [1, 2]).headD 0) 0 ∧
    ([1, 2] : List ℚ).getD 0 0 ≤
      ([1, 2] : List ℚ).getD ((sortDescIdx [1, 2]).headD 0) 0 :=
  ⟨(nucleus_keeps_top1 id [1, 2] 1 0 (by norm_num) (by simp)).1,
   (nucleus_keeps_top1 id [1, 2] 1 0 (by norm_num) (by simp)).2 0 (by norm_num)⟩

/-! ## Claims -/

/-- C1: in eval mode with `pred_eos = True` the autoregressive loop of
`Pix2seqTransformer.forward` breaks as soon as every sample has signaled the
end-of-sequence class (per `stopStateOf`, the argmax over the first
`num_vocal - 1` logits equalling `num_vocal - 2`) and more than 4 steps have
elapsed; with the end-of-sequence forced from the first step it emits exactly
5 tokens; and when some sample never signals, it runs the full 500 steps. -/
theorem pix2seq_early_stop :
    (∀ (stop : ℕ → List Bool) (fuel seq_i : ℕ) (ends : List Bool)
       (lens : List ℕ), 4 < seq_i → 0 < fuel →
       (List.zipWith (fun st e => st || e) (stop seq_i) ends).all
         (fun b => b) = true →
       (decodeLoopFrom true stop fuel seq_i ends lens).emitted = 0) ∧
    (∀ (sims : ℕ → List (List ℚ)) (bs num_vocal : ℕ),
       (∀ i, stopStateOf num_vocal (sims i) = List.replicate bs true) →
       (pix2seqDecode true num_vocal sims bs).1.emitted = 5) ∧
    (∀ (sims : ℕ → List (List ℚ)) (bs num_vocal j : ℕ), j < bs →
       (∀ i, (sims i).length = bs) →
       (∀ i, (stopStateOf num_vocal (sims i)).getD j false = false) →
       (pix2seqDecode true num_vocal sims bs).1.emitted = 500) := by
  refine ⟨fun stop fuel seq_i ends lens h4 hf hall =>
    decode_break stop fuel seq_i ends lens h4 hf hall, ?_, ?_⟩
  · intro sims bs num_vocal hstop
    exact decode_forced_start (fun i => stopStateOf num_vocal (sims i)) bs
      hstop 499 (by norm_num) _ _ (by simp)
  · intro sims bs num_vocal j hj hslen hstopj
    have hlen : ∀ i, (stopStateOf num_vocal (sims i)).length = bs :=
      fun i => by simp [stopStateOf, hslen i]
    exact decode_never (fun i => stopStateOf num_vocal (sims i)) bs j hj hlen
      hstopj 500 0 _ _ (by simp) (getD_replicate bs j false false hj)

/-- Witness for C1: a concrete break state, a batch of one sample whose
logits always argmax to the end-of-sequence class (5 emitted steps), and one
that never does (500 emitted steps). -/
theorem pix2seq_early_stop_witness :
    (decodeLoopFrom true (fun _ => [true]) 1 5 [false] []).emitted = 0 ∧
    (pix2seqDecode true 3 (fun _ => [[0, 1, 5]]) 1).1.emitted = 5 ∧
    (pix2seqDecode true 3 (fun _ => [[1, 0, 5]]) 1).1.emitted = 500 := by
  have h1 : stopStateOf 3 [[0, 1, 5]] = List.replicate 1 true := by decide
  have h2 : (stopStateOf 3 [[1, 0, 5]]).getD 0 false = false := by decide
  exact ⟨pix2seq_early_stop.1 (fun _ => [true]) 1 5 [false] [] (by norm_num)
      (by norm_num) (by decide),
    pix2seq_early_stop.2.1 (fun _ => [[0, 1, 5]]) 1 3 (fun i => h1),
    pix2seq_early_stop.2.2 (fun _ => [[1, 0, 5]]) 1 3 0 (by norm_num)
      (fun i => rfl) (fun i => h2)⟩

/-- C10: in eval mode with `pred_eos = True`, a sample's end length is only
accumulated as `seq_i` times the indicator of its first end-of-sequence step,
so a sample that never emits the end-of-sequence class within the 500-step
maximum keeps end length 0, as does a sample whose first end-of-sequence is
at step 0; in both cases the returned predicted logit sequence for that
sample is empty (length 0). -/
theorem pix2seq_empty_sequences (sims : ℕ → List (List ℚ))
    (bs num_vocal j : ℕ) (hj : j < bs) (hslen : ∀ i, (sims i).length = bs) :
    ((∀ i, (stopStateOf num_vocal (sims i)).getD j false = false) →
      (pix2seqDecode true num_vocal sims bs).1.end_lens.getD j 0 = 0 ∧
      (pix2seqDecode true num_vocal sims bs).2.getD j 0 = 0) ∧
    ((stopStateOf num_vocal (sims 0)).getD j false = true →
      (pix2seqDecode true num_vocal sims bs).1.end_lens.getD j 0 = 0 ∧
      (pix2seqDecode true num_vocal sims bs).2.getD j 0 = 0) := by
  have hlen : ∀ i, (stopStateOf num_vocal (sims i)).length = bs :=
    fun i => by simp [stopStateOf, hslen i]
  have hL : (decodeLoopFrom true (fun i => stopStateOf num_vocal (sims i))
      500 0 (List.replicate bs false) (List.replicate bs 0)).end_lens.length
      = bs :=
    decode_lens_length _ bs hlen 500 0 _ _ (by simp) (by simp)
  constructor
  · intro hstopj
    have h0 : (decodeLoopFrom true (fun i => stopStateOf num_vocal (sims i))
        500 0 (List.replicate bs false)
        (List.replicate bs 0)).end_lens.getD j 0 = 0 :=
      decode_never_lens _ bs j hj hlen hstopj 500 0 _ _ (by simp) (by simp)
        (getD_replicate bs j false false hj) (getD_replicate bs j 0 0 hj)
    refine ⟨by simpa [pix2seqDecode] using h0, ?_⟩
    simp only [pix2seqDecode, if_true]
    rw [getD_map_nat _ _ j (by rw [hL]; exact hj), h0]
    simp
  · intro hstop0
    have h0 : (decodeLoopFrom true (fun i => stopStateOf num_vocal (sims i))
        500 0 (List.replicate bs false)
        (List.replicate bs 0)).end_lens.getD j 0 = 0 :=
      decode_first_eos _ bs j hj hlen 499 _ _ (by simp) (by simp) hstop0
        (getD_replicate bs j false false hj) (getD_replicate bs j 0 0 hj)
    refine ⟨by simpa [pix2seqDecode] using h0, ?_⟩
    simp only [pix2seqDecode, if_true]
    rw [getD_map_nat _ _ j (by rw [hL]; exact hj), h0]
    simp

/-- Witness for C10: a one-sample batch that never emits end-of-sequence has
end length 0 and empty output, and one that emits it at step 0 likewise. -/
theorem pix2seq_empty_sequences_witness :
    ((pix2seqDecode true 3 (fun _ => [[1, 0, 5]]) 1).1.end_lens.getD 0 0 = 0 ∧
      (pix2seqDecode true 3 (fun _ => [[1, 0, 5]]) 1).2.getD 0 0 = 0) ∧
    ((pix2seqDecode true 3 (fun _ => [[0, 1, 5]]) 1).1.end_lens.getD 0 0 = 0 ∧
      (pix2seqDecode true 3 (fun _ => [[0, 1, 5]]) 1).2.getD 0 0 = 0) :=
  ⟨(pix2seq_empty_sequences (fun _ => [[1, 0, 5]]) 1 3 0 (by norm_num)
      (fun i => rfl)).1 (fun i => by decide),
   (pix2seq_empty_sequences (fun _ => [[0, 1, 5]]) 1 3 0 (by norm_num)
      (fun i => rfl)).2 (by decide)⟩

/-- C7: `top_k_top_p_filtering` with its default arguments `top_k = 0`,
`top_p = 0.0` is a no-op: the returned logits equal the input logits and no
entry is replaced by the filter value. -/
theorem topKTopP_default_noop (exp : ℚ → ℚ) (l : List ℚ) (fv : ℚ) :
    top_k_top_p_filtering exp l 0 0 fv = l := by
  simp [top_k_top_p_filtering]

/-- C9: `top_k_top_p_filtering` raises `AssertionError` whenever the input's
number of dimensions is not exactly 1; hence the nucleus-sampling path, which
passes `torch.squeeze(similarity)` with `similarity` of shape
`[1, bs, num_vocal]`, succeeds exactly when the batch size is 1 (for any
vocabulary size `> 1`). -/
theorem topKTopP_dim_assertion :
    (∀ (exp : ℚ → ℚ) (t : PyTensor) (k : ℕ) (p fv : ℚ), t.dim ≠ 1 →
      top_k_top_p_filteringChecked exp t k p fv =
        Except.error PyError.assertionError) ∧
    ∀ (exp : ℚ → ℚ) (k : ℕ) (p fv : ℚ) (bs V : ℕ) (d : List ℚ), 1 < V →
      (isOkResult (top_k_top_p_filteringChecked exp
          (PyTensor.squeeze ⟨[1, bs, V], d⟩) k p fv) = true ↔ bs = 1) := by
  constructor
  · intro exp t k p fv h
    simp [top_k_top_p_filteringChecked, h]
  · intro exp k p fv bs V d hV
    have hVne : (V != 1) = true := by simp; omega
    by_cases hbs : bs = 1
    · subst hbs
      simp [PyTensor.squeeze, PyTensor.dim, top_k_top_p_filteringChecked,
        isOkResult, List.filter, hVne]
    · have hbsne : (bs != 1) = true := by simp [hbs]
      simp [PyTensor.squeeze, PyTensor.dim, top_k_top_p_filteringChecked,
        isOkResult, List.filter, hVne, hbsne, hbs]

/-- Witness for C9 at concrete inputs: a 2-D tensor fails the assertion, and
a squeezed `[1, 1, 5]` similarity succeeds. -/
theorem topKTopP_dim_assertion_witness :
    top_k_top_p_filteringChecked id ⟨[2, 3], []⟩ 0 0 0 =
      Except.error PyError.assertionError ∧
    (isOkResult (top_k_top_p_filteringChecked id
        (PyTensor.squeeze ⟨[1, 1, 5], []⟩) 0 0 0) = true ↔ (1 : ℕ) = 1) :=
  ⟨topKTopP_dim_assertion.1 id ⟨[2, 3], []⟩ 0 0 0 (by decide),
   topKTopP_dim_assertion.2 id 0 0 0 1 5 [] (by norm_num)⟩

/-- C5: for every input `x` and every `eps > 0`, `inverse_sigmoid` clamps `x`
to `[0,1]` and clamps both the numerator and the denominator to at least
`eps` before dividing and taking the logarithm, so both are `≥ eps > 0` and
the quotient is positive: no division by zero and no `log 0`. -/
theorem inverse_sigmoid_safe (x eps : ℝ) (heps : 0 < eps) :
    eps ≤ invSigNum x eps ∧ eps ≤ invSigDen x eps ∧
    0 < invSigNum x eps / invSigDen x eps ∧
    0 ≤ clamp01 x ∧ clamp01 x ≤ 1 ∧
    inverse_sigmoid x eps = Real.log (invSigNum x eps / invSigDen x eps) :=
  ⟨le_max_right _ _, le_max_right _ _,
   div_pos (lt_of_lt_of_le heps (le_max_right _ _))
     (lt_of_lt_of_le heps (le_max_right _ _)),
   le_min (le_max_right x 0) (by norm_num), min_le_right _ _, rfl⟩

/-- Witness for C5 at `x = 2`, `eps = 1/2`. -/
theorem inverse_sigmoid_safe_witness :
    (1 / 2 : ℝ) ≤ invSigNum 2 (1 / 2) ∧ (1 / 2 : ℝ) ≤ invSigDen 2 (1 / 2) ∧
    0 < invSigNum 2 (1 / 2) / invSigDen 2 (1 / 2) ∧
    0 ≤ clamp01 2 ∧ clamp01 2 ≤ 1 ∧
    inverse_sigmoid 2 (1 / 2) =
      Real.log (invSigNum 2 (1 / 2) / invSigDen 2 (1 / 2)) :=
  inverse_sigmoid_safe 2 (1 / 2) (by norm_num)

/-- C6: for every `x` with `sigmoid x` inside `[eps, 1 - eps]`, the clamps in
`inverse_sigmoid` are identities and `inverse_sigmoid (sigmoid x) eps = x`
exactly over the reals. -/
theorem inverse_sigmoid_sigmoid (x eps : ℝ) (heps : 0 < eps)
    (h1 : eps ≤ sigmoid x) (h2 : sigmoid x ≤ 1 - eps) :
    inverse_sigmoid (sigmoid x) eps = x := by
  have hs0 : 0 < sigmoid x := lt_of_lt_of_le heps h1
  have hs1 : sigmoid x < 1 := lt_of_le_of_lt h2 (by linarith)
  have hc : clamp01 (sigmoid x) = sigmoid x := by
    unfold clamp01
    rw [max_eq_left hs0.le, min_eq_left hs1.le]
  have hnum : invSigNum (sigmoid x) eps = sigmoid x := by
    unfold invSigNum; rw [hc, max_eq_left h1]
  have hden : invSigDen (sigmoid x) eps = 1 - sigmoid x := by
    unfold invSigDen; rw [hc, max_eq_left (by linarith)]
  have hratio : sigmoid x / (1 - sigmoid x) = Real.exp x := by
    unfold sigmoid
    rw [Real.exp_neg]
    have hx := Real.exp_pos x
    have hx1 : (0 : ℝ) < 1 + (Real.exp x)⁻¹ := by positivity
    field_simp
  unfold inverse_sigmoid
  rw [hnum, hden, hratio, Real.log_exp]

/-- Witness for C6 at `x = 0`, `eps = 1/2` (`sigmoid 0 = 1/2`). -/
theorem inverse_sigmoid_sigmoid_witness :
    inverse_sigmoid (sigmoid 0) (1 / 2) = 0 :=
  inverse_sigmoid_sigmoid 0 (1 / 2) (by norm_num) (by simp [sigmoid_zero])
    (by rw [sigmoid_zero]; norm_num)

/-- C4: after every decoder layer with `reg_branches` provided, the
4-coordinate branch returns `sigmoid(tmp + inverse_sigmoid(old))` in every
coordinate; the 2-coordinate branch combines only the first two offset
coordinates with `inverse_sigmoid(old)` (the last two are sigmoid of the raw
offsets); the reference passed on is detached (`requires_grad = false`) and
every output coordinate lies in `[0, 1]`. -/
theorem refine_reference_points_spec (tmp : GradTensor 4) (ref4 : GradTensor 4)
    (ref2 : GradTensor 2) :
    (refineStep4 tmp ref4).requires_grad = false ∧
    (∀ i, (refineStep4 tmp ref4).val i =
      sigmoid (tmp.val i + inverse_sigmoid (ref4.val i) 1e-5)) ∧
    (∀ i, 0 ≤ (refineStep4 tmp ref4).val i ∧ (refineStep4 tmp ref4).val i ≤ 1) ∧
    (refineStep2 tmp ref2).requires_grad = false ∧
    (∀ (i : Fin 4) (h : (i : ℕ) < 2), (refineStep2 tmp ref2).val i =
      sigmoid (tmp.val i + inverse_sigmoid (ref2.val ⟨i, h⟩) 1e-5)) ∧
    (∀ i : Fin 4, 2 ≤ (i : ℕ) →
      (refineStep2 tmp ref2).val i = sigmoid (tmp.val i)) ∧
    (∀ i, 0 ≤ (refineStep2 tmp ref2).val i ∧
      (refineStep2 tmp ref2).val i ≤ 1) := by
  refine ⟨rfl, fun i => rfl, fun i => ⟨sigmoid_nonneg _, sigmoid_le_one _⟩,
    rfl, ?_, ?_, ?_⟩
  · intro i h
    simp only [refineStep2, GradTensor.detach]
    rw [dif_pos h]
  · intro i h
    simp only [refineStep2, GradTensor.detach]
    rw [dif_neg (by omega)]
  · intro i
    simp only [refineStep2, GradTensor.detach]
    by_cases h : (i : ℕ) < 2
    · rw [dif_pos h]; exact ⟨sigmoid_nonneg _, sigmoid_le_one _⟩
    · rw [dif_neg h]; exact ⟨sigmoid_nonneg _, sigmoid_le_one _⟩

/-- Witness for C4 at constant tensors, discharging the index-bound
hypotheses at coordinates `0` and `3`. -/
theorem refine_reference_points_witness :
    (refineStep4 ⟨fun _ => 0, true⟩ ⟨fun _ => 0, true⟩).requires_grad = false ∧
    (refineStep2 ⟨fun _ => 0, true⟩ ⟨fun _ => 0, true⟩).val 0 =
      sigmoid (0 + inverse_sigmoid 0 1e-5) ∧
    (refineStep2 ⟨fun _ => 0, true⟩ ⟨fun _ => 0, true⟩).val 3 = sigmoid 0 :=
  ⟨(refine_reference_points_spec ⟨fun _ => 0, true⟩ ⟨fun _ => 0, true⟩
      ⟨fun _ => 0, true⟩).1,
   (refine_reference_points_spec ⟨fun _ => 0, true⟩ ⟨fun _ => 0, true⟩
      ⟨fun _ => 0, true⟩).2.2.2.2.1 0 (by norm_num),
   (refine_reference_points_spec ⟨fun _ => 0, true⟩ ⟨fun _ => 0, true⟩
      ⟨fun _ => 0, true⟩).2.2.2.2.2.1 3 (by decide)⟩

/-- C3: per level `lvl`, every proposal's width and height equal
`0.05 * 2^lvl`; the grid center is `((w+0.5)/valid_W, (h+0.5)/valid_H)` with
the valid extents computed from the padding mask; and after the
`log(p/(1-p))` encoding, every proposal at a padded position and every
proposal with a coordinate outside `(0.01, 0.99)` has all four output
coordinates equal to `+∞`. -/
theorem gen_proposals_spec (mask : ℕ → ℕ → Bool) (H W lvl h w : ℕ) :
    proposalRaw mask H W lvl h w 2 = (0.05 : ℚ) * 2 ^ lvl ∧
    proposalRaw mask H W lvl h w 3 = (0.05 : ℚ) * 2 ^ lvl ∧
    proposalRaw mask H W lvl h w 0 = ((w : ℚ) + 1 / 2) / (validW mask W : ℚ) ∧
    proposalRaw mask H W lvl h w 1 = ((h : ℚ) + 1 / 2) / (validH mask H : ℚ) ∧
    (mask h w = true → ∀ i, outputProposal mask H W lvl h w i = ⊤) ∧
    ((¬ ∀ i : Fin 4, (0.01 : ℚ) < proposalRaw mask H W lvl h w i ∧
        proposalRaw mask H W lvl h w i < (0.99 : ℚ)) →
      ∀ i, outputProposal mask H W lvl h w i = ⊤) := by
  refine ⟨rfl, rfl, rfl, rfl, ?_, ?_⟩
  · intro hm i
    simp [outputProposal, hm]
  · intro hv i
    have hfalse : proposalValid mask H W lvl h w = false := by
      simpa [proposalValid] using hv
    simp [outputProposal, hfalse]

/-- Witness for C3: with a fully padded mask the output coordinate is `+∞`. -/
theorem gen_proposals_spec_witness :
    outputProposal (fun _ _ => true) 1 1 0 0 0 0 = ⊤ :=
  (gen_proposals_spec (fun _ _ => true) 1 1 0 0 0).2.2.2.2.1 rfl 0

end Pix2seq
